import Mathlib

/-! Verification of the multi-stage prompting and response-extraction pipeline of
the AI project builder in `src/main.py` and `src/ollama_client.py`.

Python strings are sequences of unicode code points and are modelled as
`List Char`.  The regular expressions of the source are embedded as executable
scanning functions implementing the exact matching semantics (leftmost scan,
lazy/greedy extents, non-overlapping continuation) of the three concrete
patterns the source uses; each embedding is documented at its definition.
Recursive scanners take explicit fuel (one unit per scanning step, each step
consuming at least one character), so every definition evaluates by kernel
reduction; `length + 1` fuel is always enough, which the fuel lemmas prove.
Network transport and the filesystem are oracles passed in as functions. -/

namespace CodeSovereign

/-- Python `str` modelled as a list of unicode code points. -/
abbrev Str := List Char

/-- Whitespace as Python's `str.strip()` and `\s` recognise it, restricted to
the ASCII range (space, tab, newline, carriage return, vertical tab, form
feed); the unicode-only whitespace code points do not occur in this program's
markers or prompts. -/
def pyIsSpace (c : Char) : Bool :=
  c = ' ' || c = '\t' || c = '\n' || c = '\r' || c = '\x0b' || c = '\x0c'

/-- Python `str.strip()`: drop leading and trailing whitespace. -/
def pyStrip (s : Str) : Str :=
  ((s.dropWhile pyIsSpace).reverse.dropWhile pyIsSpace).reverse

/-- The opening marker of a file block, the 8 characters "```file:"
(`main.py` line 173, `ollama_client.py` line 132). -/
def marker : Str := "\x60\x60\x60file:".data

/-- A closing fence, the 3 characters "```". -/
def fence : Str := "\x60\x60\x60".data

/-- One file recovered from a fenced block of a response: its path (stripped)
and its raw content (`main.py`, `process_ai_response`). -/
structure ExtractedFile where
  path : Str
  content : Str
  deriving DecidableEq, Repr

/-- Index of the first position of `s` at which a closing fence "```" starts
(`none` when there is none). -/
def findFenceIdx : Str → Option Nat
  | [] => none
  | c :: cs =>
    if fence.isPrefixOf (c :: cs) then some 0
    else (findFenceIdx cs).map (· + 1)

/-- The match attempt of `` ```file:(.+?)\n([\s\S]+?)``` `` at a position where
the 8-character marker has just matched; `cs` is the text after the first
character of the marker (so the remainder after the marker is `cs.drop 7`).
`(.+?)` cannot cross a newline, so the path is the run of non-newline
characters after the marker and must be nonempty, followed by a newline.
`([\s\S]+?)` is lazy and nonempty, so the content ends at the earliest closing
fence that starts at least one character after the newline.  Returns the
extracted file (path stripped, as the source strips it) and the text after the
closing fence where scanning resumes, or `none` when the attempt fails. -/
def blockAt (cs : Str) : Option (ExtractedFile × Str) :=
  let rest := cs.drop 7
  let p := rest.takeWhile (fun a => a ≠ '\n')
  if p ≠ [] ∧ p.length < rest.length then
    let after := rest.drop (p.length + 1)
    match findFenceIdx (after.drop 1) with
    | some j => some (⟨pyStrip p, after.take (j + 1)⟩, after.drop (j + 4))
    | none => none
  else none

/-- Fuel-indexed left-to-right scan of `re.finditer(r"```file:(.+?)\n([\s\S]+?)```", s)`
(`main.py` lines 173-175): at each position try the marker; on a full match,
emit the file and resume after its closing fence; on a failed attempt, resume
at the next character. -/
def extractFileBlocksF : Nat → Str → List ExtractedFile
  | 0, _ => []
  | _ + 1, [] => []
  | fuel + 1, c :: cs =>
    if marker.isPrefixOf (c :: cs) then
      match blockAt cs with
      | some (f, r) => f :: extractFileBlocksF fuel r
      | none => extractFileBlocksF fuel cs
    else extractFileBlocksF fuel cs

/-- The files extracted from one response (`main.py`, `process_ai_response`,
lines 173-180). -/
def extractFileBlocks (s : Str) : List ExtractedFile :=
  extractFileBlocksF (s.length + 1) s

/-- The match attempt of `` ```file:(.+?)\n `` after the marker: the nonempty
run of non-newline characters followed by a newline.  Returns the raw path and
the text after the newline where the scan resumes. -/
def pathAt (cs : Str) : Option (Str × Str) :=
  let rest := cs.drop 7
  let p := rest.takeWhile (fun a => a ≠ '\n')
  if p ≠ [] ∧ p.length < rest.length then some (p, rest.drop (p.length + 1))
  else none

/-- Fuel-indexed scan of `re.findall(r"```file:(.+?)\n", s)`
(`ollama_client.py` lines 132-133), the primary planned-file extraction. -/
def extractMarkerPathsF : Nat → Str → List Str
  | 0, _ => []
  | _ + 1, [] => []
  | fuel + 1, c :: cs =>
    if marker.isPrefixOf (c :: cs) then
      match pathAt cs with
      | some (p, r) => p :: extractMarkerPathsF fuel r
      | none => extractMarkerPathsF fuel cs
    else extractMarkerPathsF fuel cs

/-- The raw (unstripped) paths of the primary planned-file pattern. -/
def extractMarkerPaths (s : Str) : List Str :=
  extractMarkerPathsF (s.length + 1) s

/-- Does the 8-character file-block marker occur anywhere in `s`?  (The
executable form of "the response contains a file-block marker".) -/
def containsMarker : Str → Bool
  | [] => false
  | c :: cs => marker.isPrefixOf (c :: cs) || containsMarker cs

/-- The three heading alternatives of the fallback structure pattern
(`ollama_client.py` line 139); each is 4 characters. -/
def headingAlts : List Str := ["项目结构".data, "文件结构".data, "目录结构".data]

/-- Does one of the three headings start at the head of `s`? -/
def headingHere (s : Str) : Bool := headingAlts.any (fun h => h.isPrefixOf s)

/-- Index of the first position at which a heading starts. -/
def findHeadingIdx : Str → Option Nat
  | [] => none
  | c :: cs =>
    if headingHere (c :: cs) then some 0
    else (findHeadingIdx cs).map (· + 1)

/-- How many characters `[:：]?` consumes (greedy, at most one). -/
def colonLen : Str → Nat
  | ':' :: _ => 1
  | '：' :: _ => 1
  | _ => 0

/-- The terminator alternation `` (?:```|\n\n) `` at the head of `u`: the length
of the match, or `none`. -/
def terminatorAt (u : Str) : Option Nat :=
  if fence.isPrefixOf u then some 3
  else if ('\n' :: '\n' :: []).isPrefixOf u then some 2
  else none

/-- Earliest terminator position in `u` with the matched length. -/
def findTermFrom : Str → Option (Nat × Nat)
  | [] => none
  | c :: cs =>
    match terminatorAt (c :: cs) with
    | some len => some (0, len)
    | none => (findTermFrom cs).map (fun q => (q.1 + 1, q.2))

/-- Latest terminator position in `u` with the matched length. -/
def findTermLast : Str → Option (Nat × Nat)
  | [] => none
  | c :: cs =>
    match findTermLast cs with
    | some q => some (q.1 + 1, q.2)
    | none => (terminatorAt (c :: cs)).map (fun len => (0, len))

/-- `group(0)` of `re.search(r"(?:项目结构|文件结构|目录结构)[:：]?\s*(?:\n|.)*?(?:```|\n\n)", s)`
(`ollama_client.py` lines 139-143).  The search anchors at the first heading
occurrence (a failure there cannot succeed later, since the terminator set
only shrinks); `[:：]?` greedily takes one colon; `\s*` greedily takes the
maximal whitespace run of length `w`, then the lazy middle finds the earliest
terminator at or after the run; when none exists the engine backtracks `\s*`,
which lands on the latest terminator before the end of the run (necessarily a
blank-line pair inside it); when no terminator follows the heading at all
there is no match. -/
def structMatch (s : Str) : Option Str :=
  match findHeadingIdx s with
  | none => none
  | some p =>
    let u0 := s.drop (p + 4)
    let cl := colonLen u0
    let u := u0.drop cl
    let w := (u.takeWhile pyIsSpace).length
    match findTermFrom (u.drop w) with
    | some q => some ((s.drop p).take (4 + cl + w + q.1 + q.2))
    | none =>
      match findTermLast u with
      | some q => some ((s.drop p).take (4 + cl + q.1 + q.2))
      | none => none

/-- Python's `\w` for the code points this program's text can contain: ASCII
letters, digits, underscore, and the CJK unified ideographs block. -/
def isWordChar (c : Char) : Bool :=
  c.isAlphanum || c = '_' || (decide (0x4e00 ≤ c.toNat) && decide (c.toNat ≤ 0x9fff))

/-- A character of the class `[\w\-\.]` of the path token pattern. -/
def tokenChar (c : Char) : Bool := isWordChar c || c = '-' || c = '.'

/-- Length of the match of `[\w\-\.]+\.[\w]+` (`ollama_client.py` line 145) at
the start of a maximal token-character run `run`: the first component is
greedy and backtracks from its longest extent, so it splits at the last
position `f ≥ 1` of `run` holding a dot followed by a word character, and the
trailing `[\w]+` is greedy.  `none` when no such split exists (the attempt at
this position fails). -/
def tokenMatchLen (run : Str) : Option Nat :=
  match ((List.range run.length).filter fun f =>
      decide (1 ≤ f) && ((run.drop f).head? == some '.') &&
        (match (run.drop (f + 1)).head? with
         | some c => isWordChar c
         | none => false)).max? with
  | some f => some (f + 1 + ((run.drop (f + 1)).takeWhile isWordChar).length)
  | none => none

/-- Fuel-indexed scan of `re.findall(r"[\w\-\.]+\.[\w]+", s)`: at each position
attempt a match over the maximal token-character run; on success resume after
the match (its length is at least 2, so `cs.drop (len - 1)` is the text after
it); on failure resume at the next character. -/
def tokenFindallF : Nat → Str → List Str
  | 0, _ => []
  | _ + 1, [] => []
  | fuel + 1, c :: cs =>
    match tokenMatchLen ((c :: cs).takeWhile tokenChar) with
    | some len =>
      ((c :: cs).takeWhile tokenChar).take len :: tokenFindallF fuel (cs.drop (len - 1))
    | none => tokenFindallF fuel cs

/-- All path-shaped tokens of `s`, left to right. -/
def tokenFindall (s : Str) : List Str := tokenFindallF (s.length + 1) s

/-- `_extract_planned_files` (`ollama_client.py` lines 120-148): the primary
marker+path pattern, stripped, when it matched anywhere; otherwise the
path-shaped tokens of the structure-heading match; otherwise the empty list. -/
def extract_planned_files (s : Str) : List Str :=
  let prim := extractMarkerPaths s
  if prim ≠ [] then prim.map pyStrip
  else
    match structMatch s with
    | some g0 => tokenFindall g0
    | none => []

/-- One fuel step of `_group_files` (`ollama_client.py` line 160),
`[files[i:i+group_size] for i in range(0, len(files), group_size)]`.
The source always calls it with `group_size = 3`; a zero group size would
raise in Python (`range` step 0) and is left meaningless here. -/
def group_filesF : Nat → List Str → Nat → List (List Str)
  | 0, _, _ => []
  | _ + 1, [], _ => []
  | fuel + 1, f :: fs, gs => (f :: fs).take gs :: group_filesF fuel ((f :: fs).drop gs) gs

/-- `_group_files files group_size`. -/
def group_files (files : List Str) (gs : Nat) : List (List Str) :=
  group_filesF (files.length + 1) files gs

/-- The Inference Client's connection settings (`ollama_client.py` lines 7-16). -/
structure OllamaClient where
  api_url : Str
  model_name : Str
  timeout : Nat
  deriving DecidableEq, Repr

/-- The defaults of `OllamaClient.__init__`. -/
def OllamaClient.mkDefault : OllamaClient :=
  ⟨"http://localhost:11434/api".data, "deepseek-coder-v2:latest".data, 10000⟩

/-- `update_settings` (`ollama_client.py` lines 18-26): assigns the endpoint
URL and the model identifier. -/
def update_settings (c : OllamaClient) (api_url model_name : Str) : OllamaClient :=
  { c with api_url := api_url, model_name := model_name }

/-- What one `requests.post` to the generate endpoint can come back as:
a response with an HTTP status, a body (`.json().get('response', '')` either
yields the value of the `response` field, Ok with the field list, or raises if
the body is not a JSON object, Error with the exception text), and the raw
text; or a raised transport exception. -/
inductive HttpOutcome where
  | resp (status : Nat) (body : Except Str (List (Str × Str))) (text : Str)
  | exc (msg : Str)

/-- Python `dict.get` over the parsed JSON object's fields. -/
def lookupField : List (Str × Str) → Str → Option Str
  | [], _ => none
  | (k, v) :: fs, key => if k = key then some v else lookupField fs key

/-- `generate` (`ollama_client.py` lines 28-61) over a transport oracle `http`
keyed by endpoint URL, model identifier and prompt.  Status 200 with a JSON
object body yields the `response` field (empty when absent); any other status
yields the sentinel "生成失败: API错误: {status} - {text}"; a raised exception
(transport or JSON) yields the sentinel "生成失败: 请求异常: {msg}".  The
function is total: no outcome escapes as a failure. -/
def generate (http : Str → Str → Str → HttpOutcome) (c : OllamaClient) (prompt : Str) : Str :=
  match http c.api_url c.model_name prompt with
  | .exc m => "生成失败: 请求异常: ".data ++ m
  | .resp status body text =>
    if status = 200 then
      match body with
      | .ok fields => (lookupField fields "response".data).getD []
      | .error m => "生成失败: 请求异常: ".data ++ m
    else
      "生成失败: API错误: ".data ++ (Nat.repr status).data ++ " - ".data ++ text

/-- What the pipeline can observe of one path on disk: absent, readable with
some content, or present but raising on read (`ollama_client.py` lines 92-98). -/
inductive FileState where
  | absent
  | readable (content : Str)
  | unreadable (errMsg : Str)

/-- `os.path.isabs` on posix: the path starts with a slash. -/
def os_isabs (p : Str) : Bool :=
  match p with
  | '/' :: _ => true
  | _ => false

/-- `os.path.join a b` on posix for two components: `b` when absolute,
otherwise `a` glued to `b` with exactly one separator. -/
def os_path_join (a b : Str) : Str :=
  if os_isabs b then b
  else if a = [] ∨ a.getLast? = some '/' then a ++ b
  else a ++ '/' :: b

/-- The planning-stage suffix (`ollama_client.py` line 76). -/
def planningSuffix : Str := "\n\n首先，请分析需求并提供项目的整体规划和结构设计。".data

/-- The header of a per-group implementation prompt (`ollama_client.py` line 87). -/
def implHeader : Str := "\n\n请实现以下文件:\n".data

/-- The core-files suffix of the no-plan branch (`ollama_client.py` line 104). -/
def coreSuffix : Str := "\n\n请开始实现项目的核心文件。".data

/-- The remaining-files suffix of the no-plan branch (`ollama_client.py` line 109). -/
def followupSuffix : Str := "\n\n请继续实现项目的其他必要文件，包括配置文件、辅助模块和文档。".data

/-- The finalization suffix (`ollama_client.py` line 114). -/
def finalSuffix : Str := "\n\n请检查项目的完整性，确保所有必要的文件都已创建，并提供如何运行和测试项目的说明。".data

/-- What one planned file adds to its group's implementation prompt
(`ollama_client.py` lines 90-98): nothing when the resolved path does not
exist, the fenced current content when readable, a note otherwise. -/
def fileContext (fs : Str → FileState) (project_path fp : Str) : Str :=
  let full := if os_isabs fp then fp else os_path_join project_path fp
  match fs full with
  | .absent => []
  | .readable content =>
    "\n\n现有文件 ".data ++ fp ++ " 的内容:\n".data ++ fence ++ "\n".data
      ++ content ++ "\n".data ++ fence
  | .unreadable m => "\n\n无法读取文件 ".data ++ fp ++ ": ".data ++ m

/-- The implementation prompt of one file group (`ollama_client.py` lines 87-98). -/
def implPrompt (fs : Str → FileState) (project_path prompt : Str) (g : List Str) : Str :=
  prompt ++ implHeader
    ++ List.intercalate "\n".data (g.map (fun f => "- ".data ++ f))
    ++ (g.map (fileContext fs project_path)).flatten

/-- `generate_with_context` (`ollama_client.py` lines 63-118) with the model
call abstracted as `gen` (the source's `self.generate`) and the disk as `fs`:
the planning call; then, when the planning response yields planned files, one
implementation call per group of 3 in plan order, and otherwise the fixed
core-files call followed by the followup call; then the finalization call.
Returns the raw responses in execution order. -/
def generate_with_context (gen : Str → Str) (fs : Str → FileState)
    (prompt project_path : Str) : List Str :=
  let planning_response := gen (prompt ++ planningSuffix)
  let planned_files := extract_planned_files planning_response
  let middle :=
    if planned_files ≠ [] then
      (group_files planned_files 3).map (fun g => gen (implPrompt fs project_path prompt g))
    else
      [gen (prompt ++ coreSuffix), gen (prompt ++ followupSuffix)]
  planning_response :: middle ++ [gen (prompt ++ finalSuffix)]

/-- What `start_project_generation` (`main.py` lines 57-81) does with its
inputs: an error event and an immediate return (no log clearing, no thread,
no pipeline call, no filesystem access), or the start-status event plus the
launched generation thread. -/
inductive StartResult where
  | rejected (errMsg : Str)
  | launched (statusMsg : Str)
  deriving DecidableEq, Repr

/-- The validation of `start_project_generation`: an empty project path is
rejected first with "请先选择项目文件夹"; then a requirement empty after
stripping is rejected with "请输入项目需求"; only then does the run start. -/
def start_project_generation (project_path requirement : Str) : StartResult :=
  if project_path = [] then .rejected "请先选择项目文件夹".data
  else if pyStrip requirement = [] then .rejected "请输入项目需求".data
  else .launched "开始处理项目需求...".data

/-- The filesystem as the File Materializer touches it: a map from absolute
path to file content.  Parent-directory creation (`os.makedirs`) has no
observable effect in this flat view. -/
abbrev FS := Str → Option Str

/-- Path resolution of `process_ai_response` (`main.py` lines 183-184): keep
an absolute path, join a relative one onto the project path. -/
def resolvePath (project_path p : Str) : Str :=
  if os_isabs p then p else os_path_join project_path p

/-- `open(path, 'w').write(content)`: full replacement of the file at `path`. -/
def writeFS (fs : FS) (path content : Str) : FS :=
  fun q => if q = path then some content else fs q

/-- Materializing one extracted file (`main.py` lines 182-191). -/
def applyExtractedFile (fs : FS) (project_path : Str) (f : ExtractedFile) : FS :=
  writeFS fs (resolvePath project_path f.path) f.content

/-- The file side effect of `process_ai_response` on one response: extract the
blocks and write each in order (`main.py` lines 172-195). -/
def process_ai_response_files (fs : FS) (project_path response : Str) : FS :=
  (extractFileBlocks response).foldl (fun acc f => applyExtractedFile acc project_path f) fs


/-! Helper lemmas: fuel adequacy, step equations, and structural facts about
the scanners.  None of these is a claim's theorem. -/

section Fuel

lemma blockAt_rest_le (cs : Str) (f : ExtractedFile) (r : Str)
    (h : blockAt cs = some (f, r)) : r.length ≤ cs.length := by
  simp only [blockAt] at h
  split at h
  · split at h
    · cases h
      simp [List.length_drop]
    · cases h
  · cases h

lemma pathAt_rest_le (cs : Str) (p : Str) (r : Str)
    (h : pathAt cs = some (p, r)) : r.length ≤ cs.length := by
  simp only [pathAt] at h
  split at h
  · cases h
    simp [List.length_drop]
  · cases h

lemma extractFileBlocksF_fuel (fuel : Nat) : ∀ (s : Str), s.length < fuel →
    extractFileBlocksF fuel s = extractFileBlocksF (s.length + 1) s := by
  induction fuel using Nat.strong_induction_on with
  | _ fuel ih =>
    intro s hs
    obtain ⟨f, rfl⟩ : ∃ f, fuel = f + 1 := ⟨fuel - 1, by omega⟩
    cases s with
    | nil => rfl
    | cons c cs =>
      have hcs : cs.length < f := by simp at hs; omega
      simp only [extractFileBlocksF, List.length_cons]
      by_cases hm : marker.isPrefixOf (c :: cs)
      · rw [if_pos hm, if_pos hm]
        cases hb : blockAt cs with
        | some pr =>
          obtain ⟨fl, r⟩ := pr
          have hr : r.length ≤ cs.length := blockAt_rest_le cs fl r hb
          simp only [hb]
          rw [ih f (by omega) r (by omega), ih (cs.length + 1) (by omega) r (by omega)]
        | none =>
          simp only [hb]
          rw [ih f (by omega) cs hcs, ih (cs.length + 1) (by omega) cs (by omega)]
      · rw [if_neg hm, if_neg hm]
        rw [ih f (by omega) cs hcs, ih (cs.length + 1) (by omega) cs (by omega)]

end Fuel
lemma extractMarkerPathsF_fuel (fuel : Nat) : ∀ (s : Str), s.length < fuel →
    extractMarkerPathsF fuel s = extractMarkerPathsF (s.length + 1) s := by
  induction fuel using Nat.strong_induction_on with
  | _ fuel ih =>
    intro s hs
    obtain ⟨f, rfl⟩ : ∃ f, fuel = f + 1 := ⟨fuel - 1, by omega⟩
    cases s with
    | nil => rfl
    | cons c cs =>
      have hcs : cs.length < f := by simp at hs; omega
      simp only [extractMarkerPathsF, List.length_cons]
      by_cases hm : marker.isPrefixOf (c :: cs)
      · rw [if_pos hm, if_pos hm]
        cases hb : pathAt cs with
        | some pr =>
          obtain ⟨p, r⟩ := pr
          have hr : r.length ≤ cs.length := pathAt_rest_le cs p r hb
          simp only [hb]
          rw [ih f (by omega) r (by omega), ih (cs.length + 1) (by omega) r (by omega)]
        | none =>
          simp only [hb]
          rw [ih f (by omega) cs hcs, ih (cs.length + 1) (by omega) cs (by omega)]
      · rw [if_neg hm, if_neg hm]
        rw [ih f (by omega) cs hcs, ih (cs.length + 1) (by omega) cs (by omega)]

lemma tokenFindallF_fuel (fuel : Nat) : ∀ (s : Str), s.length < fuel →
    tokenFindallF fuel s = tokenFindallF (s.length + 1) s := by
  induction fuel using Nat.strong_induction_on with
  | _ fuel ih =>
    intro s hs
    obtain ⟨f, rfl⟩ : ∃ f, fuel = f + 1 := ⟨fuel - 1, by omega⟩
    cases s with
    | nil => rfl
    | cons c cs =>
      have hcs : cs.length < f := by simp at hs; omega
      simp only [tokenFindallF, List.length_cons]
      cases hb : tokenMatchLen ((c :: cs).takeWhile tokenChar) with
      | some len =>
        have hr : (cs.drop (len - 1)).length ≤ cs.length := by
          simp [List.length_drop]
        simp only [hb]
        rw [ih f (by omega) (cs.drop (len - 1)) (by omega),
          ih (cs.length + 1) (by omega) (cs.drop (len - 1)) (by omega)]
      | none =>
        simp only [hb]
        rw [ih f (by omega) cs hcs, ih (cs.length + 1) (by omega) cs (by omega)]

lemma group_filesF_fuel (fuel : Nat) : ∀ (files : List Str) (gs : Nat), 0 < gs →
    files.length < fuel → group_filesF fuel files gs = group_filesF (files.length + 1) files gs := by
  induction fuel using Nat.strong_induction_on with
  | _ fuel ih =>
    intro files gs hgs hs
    obtain ⟨f, rfl⟩ : ∃ f, fuel = f + 1 := ⟨fuel - 1, by omega⟩
    cases files with
    | nil => rfl
    | cons x xs =>
      have hxs : xs.length < f := by simp at hs; omega
      have hr : ((x :: xs).drop gs).length < (x :: xs).length := by
        simp [List.length_drop]
        omega
      simp only [group_filesF, List.length_cons]
      rw [ih f (by omega) _ gs hgs (by simp at hr ⊢; omega),
        ih (xs.length + 1) (by omega) _ gs hgs (by simp at hr ⊢; omega)]

lemma extractFileBlocks_cons_some (c : Char) (cs : Str) (fl : ExtractedFile) (r : Str)
    (hm : marker.isPrefixOf (c :: cs) = true) (hb : blockAt cs = some (fl, r)) :
    extractFileBlocks (c :: cs) = fl :: extractFileBlocks r := by
  have hr := blockAt_rest_le cs fl r hb
  simp only [extractFileBlocks, List.length_cons, extractFileBlocksF]
  rw [if_pos hm]
  simp only [hb]
  rw [extractFileBlocksF_fuel (cs.length + 1) r (by omega)]

lemma extractFileBlocks_cons_none (c : Char) (cs : Str)
    (hm : marker.isPrefixOf (c :: cs) = true) (hb : blockAt cs = none) :
    extractFileBlocks (c :: cs) = extractFileBlocks cs := by
  simp only [extractFileBlocks, List.length_cons, extractFileBlocksF]
  rw [if_pos hm]
  simp only [hb]

lemma extractFileBlocks_cons_nomark (c : Char) (cs : Str)
    (hm : marker.isPrefixOf (c :: cs) = false) :
    extractFileBlocks (c :: cs) = extractFileBlocks cs := by
  simp only [extractFileBlocks, List.length_cons, extractFileBlocksF]
  rw [if_neg (by simp [hm])]

lemma extractMarkerPaths_cons_some (c : Char) (cs : Str) (p : Str) (r : Str)
    (hm : marker.isPrefixOf (c :: cs) = true) (hb : pathAt cs = some (p, r)) :
    extractMarkerPaths (c :: cs) = p :: extractMarkerPaths r := by
  have hr := pathAt_rest_le cs p r hb
  simp only [extractMarkerPaths, List.length_cons, extractMarkerPathsF]
  rw [if_pos hm]
  simp only [hb]
  rw [extractMarkerPathsF_fuel (cs.length + 1) r (by omega)]

lemma extractMarkerPaths_cons_none (c : Char) (cs : Str)
    (hm : marker.isPrefixOf (c :: cs) = true) (hb : pathAt cs = none) :
    extractMarkerPaths (c :: cs) = extractMarkerPaths cs := by
  simp only [extractMarkerPaths, List.length_cons, extractMarkerPathsF]
  rw [if_pos hm]
  simp only [hb]

lemma extractMarkerPaths_cons_nomark (c : Char) (cs : Str)
    (hm : marker.isPrefixOf (c :: cs) = false) :
    extractMarkerPaths (c :: cs) = extractMarkerPaths cs := by
  simp only [extractMarkerPaths, List.length_cons, extractMarkerPathsF]
  rw [if_neg (by simp [hm])]

lemma group_files_cons (x : Str) (xs : List Str) (gs : Nat) (hgs : 0 < gs) :
    group_files (x :: xs) gs = (x :: xs).take gs :: group_files ((x :: xs).drop gs) gs := by
  simp only [group_files, List.length_cons, group_filesF]
  rw [group_filesF_fuel (xs.length + 1) _ gs hgs (by simp [List.length_drop]; omega)]
lemma group_files_three_length (files : List Str) :
    (group_files files 3).length = (files.length + 2) / 3 := by
  generalize hn : files.length = n
  induction n using Nat.strong_induction_on generalizing files with
  | _ n ih =>
    cases files with
    | nil => subst hn; rfl
    | cons x xs =>
      subst hn
      rw [group_files_cons x xs 3 (by omega), List.length_cons,
        ih ((x :: xs).drop 3).length (by simp; omega) _ rfl]
      simp [List.length_drop]
      omega

lemma group_files_three_join (files : List Str) :
    (group_files files 3).flatten = files := by
  generalize hn : files.length = n
  induction n using Nat.strong_induction_on generalizing files with
  | _ n ih =>
    cases files with
    | nil => subst hn; rfl
    | cons x xs =>
      subst hn
      rw [group_files_cons x xs 3 (by omega), List.flatten_cons,
        ih ((x :: xs).drop 3).length (by simp; omega) _ rfl]
      exact List.take_append_drop 3 (x :: xs)

lemma group_files_three_sizes (files : List Str) :
    ∀ g ∈ group_files files 3, g.length ≤ 3 := by
  generalize hn : files.length = n
  induction n using Nat.strong_induction_on generalizing files with
  | _ n ih =>
    cases files with
    | nil => subst hn; intro g hg; simp [group_files, group_filesF] at hg
    | cons x xs =>
      subst hn
      rw [group_files_cons x xs 3 (by omega)]
      intro g hg
      rcases List.mem_cons.mp hg with h | h
      · subst h; simp [List.length_take]
      · exact ih ((x :: xs).drop 3).length (by simp; omega) _ rfl g h

lemma takeWhile_newline_decomp (l : Str)
    (h : (l.takeWhile (fun a => a ≠ '\n')).length < l.length) :
    l = l.takeWhile (fun a => a ≠ '\n')
      ++ '\n' :: l.drop ((l.takeWhile (fun a => a ≠ '\n')).length + 1) := by
  induction l with
  | nil => simp at h
  | cons c cs ih =>
    by_cases hc : c = '\n'
    · subst hc
      simp [List.takeWhile_cons]
    · rw [List.takeWhile_cons_of_pos (by simp [hc])] at h ⊢
      simp only [List.length_cons, List.drop_succ_cons, List.cons_append, List.cons.injEq,
        true_and]
      exact ih (by simpa using h)
lemma findFenceIdx_some (l : Str) : ∀ j, findFenceIdx l = some j →
    fence.isPrefixOf (l.drop j) = true ∧ ∀ i, i < j → fence.isPrefixOf (l.drop i) = false := by
  induction l with
  | nil => intro j h; cases h
  | cons c cs ih =>
    intro j h
    simp only [findFenceIdx] at h
    by_cases hf : fence.isPrefixOf (c :: cs)
    · rw [if_pos hf] at h
      cases h
      exact ⟨hf, by omega⟩
    · rw [if_neg hf] at h
      cases hj : findFenceIdx cs with
      | none => rw [hj] at h; cases h
      | some j' =>
        rw [hj] at h
        simp only [Option.map_some'] at h
        cases h
        obtain ⟨h1, h2⟩ := ih j' hj
        refine ⟨by simpa using h1, ?_⟩
        intro i hi
        cases i with
        | zero => simp only [List.drop_zero]; exact Bool.eq_false_iff.mpr hf
        | succ i' => simpa using h2 i' (by omega)

lemma findFenceIdx_none (l : Str) (h : findFenceIdx l = none) :
    ∀ i, fence.isPrefixOf (l.drop i) = false := by
  induction l with
  | nil => intro i; rw [List.drop_nil]; decide
  | cons c cs ih =>
    intro i
    simp only [findFenceIdx] at h
    by_cases hf : fence.isPrefixOf (c :: cs)
    · rw [if_pos hf] at h; cases h
    · rw [if_neg hf] at h
      cases i with
      | zero => simp only [List.drop_zero]; exact Bool.eq_false_iff.mpr hf
      | succ i' =>
        cases hj : findFenceIdx cs with
        | some j' => rw [hj] at h; cases h
        | none => simpa using ih hj i'

lemma blockAt_some_decomp (cs : Str) (fl : ExtractedFile) (r : Str)
    (h : blockAt cs = some (fl, r)) :
    ∃ raw, cs.drop 7 = raw ++ '\n' :: (fl.content ++ fence ++ r) ∧
      fl.path = pyStrip raw ∧ raw ≠ [] ∧ (∀ a ∈ raw, a ≠ '\n') ∧
      fl.content ≠ [] ∧
      ∀ i, 1 ≤ i → i < fl.content.length →
        fence.isPrefixOf ((fl.content ++ fence ++ r).drop i) = false := by
  simp only [blockAt] at h
  split at h
  case isTrue hp =>
    obtain ⟨hp1, hp2⟩ := hp
    split at h
    case h_1 j hj =>
      cases h
      set rest := cs.drop 7 with hrest
      set p := rest.takeWhile (fun a => a ≠ '\n') with hpdef
      set after := rest.drop (p.length + 1) with hafter
      obtain ⟨hfj, hmin⟩ := findFenceIdx_some (after.drop 1) j hj
      rw [List.drop_drop] at hfj
      have hpre : fence <+: after.drop (j + 1) := by
        have h1 := List.isPrefixOf_iff_prefix.mp hfj
        rwa [Nat.add_comm] at h1
      obtain ⟨t, ht⟩ := hpre
      have hne : after.drop (j + 1) ≠ [] := by
        rw [← ht]; simp [fence]
      have hlen : j + 1 < after.length := by
        by_contra hcon
        push_neg at hcon
        exact hne (List.drop_eq_nil_of_le hcon)
      have ht4 : t = after.drop (j + 4) := by
        have h0 : List.drop 3 (fence ++ t) = t := List.drop_left fence t
        rw [ht] at h0
        rw [← h0, List.drop_drop]
      have hsplit : after = after.take (j + 1) ++ (fence ++ after.drop (j + 4)) := by
        conv_lhs => rw [← List.take_append_drop (j + 1) after]
        rw [← ht, ht4]
      have hlentake : (after.take (j + 1)).length = j + 1 := by
        rw [List.length_take]
        omega
      have hdec := takeWhile_newline_decomp rest (by rw [← hpdef]; exact hp2)
      rw [← hpdef, ← hafter] at hdec
      refine ⟨p, ?_, rfl, hp1, ?_, ?_, ?_⟩
      · dsimp only
        rw [hdec, List.append_assoc, ← hsplit]
      · intro a ha
        have := List.mem_takeWhile_imp ha
        simpa using this
      · dsimp only
        intro hcon
        rw [hcon] at hlentake
        simp at hlentake
      · dsimp only
        intro i h1 hi
        rw [hlentake] at hi
        rw [List.append_assoc, ← hsplit]
        obtain ⟨i', rfl⟩ : ∃ i', i = i' + 1 := ⟨i - 1, by omega⟩
        have hm := hmin i' (by omega)
        rw [List.drop_drop] at hm
        rwa [Nat.add_comm] at hm
    case h_2 => cases h
  case isFalse => cases h
lemma marker_prefix_decomp (c : Char) (cs : Str)
    (hm : marker.isPrefixOf (c :: cs) = true) : c :: cs = marker ++ cs.drop 7 := by
  obtain ⟨u, hu⟩ := List.isPrefixOf_iff_prefix.mp hm
  have h8 : List.drop 8 (marker ++ u) = u := List.drop_left marker u
  rw [hu] at h8
  have h9 : u = cs.drop 7 := by rw [← h8]; rfl
  rw [← hu, h9]

lemma extractFileBlocks_step (s : Str) :
    extractFileBlocks s = [] ∨
    ∃ pre raw content rest,
      s = pre ++ marker ++ raw ++ '\n' :: (content ++ fence ++ rest) ∧
      extractFileBlocks s = ⟨pyStrip raw, content⟩ :: extractFileBlocks rest ∧
      raw ≠ [] ∧ (∀ a ∈ raw, a ≠ '\n') ∧ content ≠ [] ∧
      ∀ i, 1 ≤ i → i < content.length →
        fence.isPrefixOf ((content ++ fence ++ rest).drop i) = false := by
  generalize hn : s.length = n
  induction n using Nat.strong_induction_on generalizing s with
  | _ n ih =>
    cases s with
    | nil => left; rfl
    | cons c cs =>
      subst hn
      by_cases hm : marker.isPrefixOf (c :: cs)
      · cases hb : blockAt cs with
        | some pr =>
          obtain ⟨fl, r⟩ := pr
          right
          obtain ⟨raw, hdec, hpath, hraw1, hraw2, hc1, hc2⟩ := blockAt_some_decomp cs fl r hb
          refine ⟨[], raw, fl.content, r, ?_, ?_, hraw1, hraw2, hc1, hc2⟩
          · rw [List.nil_append, marker_prefix_decomp c cs hm, hdec]
            simp [List.append_assoc]
          · rw [extractFileBlocks_cons_some c cs fl r hm hb]
            have hfl : (⟨pyStrip raw, fl.content⟩ : ExtractedFile) = fl := by
              rw [← hpath]
            rw [hfl]
        | none =>
          have heq := extractFileBlocks_cons_none c cs hm hb
          rcases ih cs.length (by simp) cs rfl with h0 |
            ⟨pre, raw, content, rest, h1, h2, h3, h4, h5, h6⟩
          · left; rw [heq, h0]
          · right
            exact ⟨c :: pre, raw, content, rest,
              by rw [h1]; simp [List.append_assoc, List.cons_append],
              by rw [heq, h2], h3, h4, h5, h6⟩
      · have heq := extractFileBlocks_cons_nomark c cs (Bool.eq_false_iff.mpr hm)
        rcases ih cs.length (by simp) cs rfl with h0 |
          ⟨pre, raw, content, rest, h1, h2, h3, h4, h5, h6⟩
        · left; rw [heq, h0]
        · right
          exact ⟨c :: pre, raw, content, rest,
            by rw [h1]; simp [List.append_assoc, List.cons_append],
            by rw [heq, h2], h3, h4, h5, h6⟩

lemma mem_extractFileBlocks (s : Str) (f : ExtractedFile) (hf : f ∈ extractFileBlocks s) :
    ∃ pre raw rest, s = pre ++ marker ++ raw ++ '\n' :: (f.content ++ fence ++ rest) ∧
      f.path = pyStrip raw ∧ raw ≠ [] ∧ (∀ a ∈ raw, a ≠ '\n') ∧ f.content ≠ [] := by
  generalize hn : s.length = n
  induction n using Nat.strong_induction_on generalizing s f with
  | _ n ih =>
    subst hn
    rcases extractFileBlocks_step s with h0 |
      ⟨pre, raw, content, rest, h1, h2, h3, h4, h5, _h6⟩
    · rw [h0] at hf
      cases hf
    · rw [h2] at hf
      have hrest : rest.length < s.length := by
        have := congrArg List.length h1
        simp [List.length_append, marker, fence] at this
        omega
      rcases List.mem_cons.mp hf with hfe | hfm
      · subst hfe
        exact ⟨pre, raw, rest, h1, rfl, h3, h4, h5⟩
      · obtain ⟨pre', raw', rest', g1, g2, g3, g4, g5⟩ := ih rest.length hrest rest f hfm rfl
        refine ⟨pre ++ marker ++ raw ++ '\n' :: (content ++ fence ++ pre'), raw', rest', ?_,
          g2, g3, g4, g5⟩
        rw [h1, g1]
        simp [List.append_assoc, List.cons_append]
lemma extractFileBlocks_no_marker (s : Str)
    (h : ∀ i, marker.isPrefixOf (s.drop i) = false) : extractFileBlocks s = [] := by
  generalize hn : s.length = n
  induction n using Nat.strong_induction_on generalizing s with
  | _ n ih =>
    cases s with
    | nil => rfl
    | cons c cs =>
      subst hn
      have h0 := h 0
      rw [List.drop_zero] at h0
      rw [extractFileBlocks_cons_nomark c cs h0]
      exact ih cs.length (by simp) cs (fun i => by simpa using h (i + 1)) rfl

lemma extractMarkerPaths_no_marker (s : Str)
    (h : ∀ i, marker.isPrefixOf (s.drop i) = false) : extractMarkerPaths s = [] := by
  generalize hn : s.length = n
  induction n using Nat.strong_induction_on generalizing s with
  | _ n ih =>
    cases s with
    | nil => rfl
    | cons c cs =>
      subst hn
      have h0 := h 0
      rw [List.drop_zero] at h0
      rw [extractMarkerPaths_cons_nomark c cs h0]
      exact ih cs.length (by simp) cs (fun i => by simpa using h (i + 1)) rfl

lemma containsMarker_false (s : Str) (h : containsMarker s = false) :
    ∀ i, marker.isPrefixOf (s.drop i) = false := by
  induction s with
  | nil => intro i; rw [List.drop_nil]; decide
  | cons c cs ih =>
    simp only [containsMarker, Bool.or_eq_false_iff] at h
    intro i
    cases i with
    | zero => rw [List.drop_zero]; exact h.1
    | succ i' => simpa using ih h.2 i'

lemma tokenFindall_cons_some (c : Char) (cs : Str) (len : Nat)
    (hb : tokenMatchLen ((c :: cs).takeWhile tokenChar) = some len) :
    tokenFindall (c :: cs) =
      ((c :: cs).takeWhile tokenChar).take len :: tokenFindall (cs.drop (len - 1)) := by
  simp only [tokenFindall, List.length_cons, tokenFindallF]
  simp only [hb]
  rw [tokenFindallF_fuel (cs.length + 1) (cs.drop (len - 1)) (by simp [List.length_drop]; omega)]

lemma tokenFindall_cons_none (c : Char) (cs : Str)
    (hb : tokenMatchLen ((c :: cs).takeWhile tokenChar) = none) :
    tokenFindall (c :: cs) = tokenFindall cs := by
  simp only [tokenFindall, List.length_cons, tokenFindallF]
  simp only [hb]

lemma tokenMatchLen_some (run : Str) (len : Nat) (h : tokenMatchLen run = some len) :
    1 ≤ len ∧ len ≤ run.length ∧ '.' ∈ run.take len := by
  simp only [tokenMatchLen] at h
  split at h
  case h_1 f hf =>
    cases h
    have hmem : f ∈ (List.range run.length).filter _ := List.max?_mem max_choice hf
    have hp := List.mem_filter.mp hmem
    obtain ⟨hrange, hpred⟩ := hp
    rw [List.mem_range] at hrange
    simp only [Bool.and_eq_true, decide_eq_true_eq, beq_iff_eq] at hpred
    obtain ⟨⟨hf1, hdot⟩, hword⟩ := hpred
    have hwl : ((run.drop (f + 1)).takeWhile isWordChar).length ≤ run.length - (f + 1) := by
      have h1 := (List.takeWhile_sublist (l := run.drop (f + 1)) isWordChar).length_le
      simpa [List.length_drop] using h1
    refine ⟨by omega, by omega, ?_⟩
    have hget : run[f]? = some '.' := by
      rw [← List.head?_drop]
      exact hdot
    rw [List.getElem?_eq_some] at hget
    obtain ⟨hflt, hgete⟩ := hget
    rw [List.mem_iff_getElem]
    exact ⟨f, by simp [List.length_take]; omega, by rw [List.getElem_take]; exact hgete⟩
  case h_2 => cases h

lemma tokenFindall_sound (s : Str) : ∀ t ∈ tokenFindall s,
    t ≠ [] ∧ '.' ∈ t ∧ ∀ a ∈ t, tokenChar a = true := by
  generalize hn : s.length = n
  induction n using Nat.strong_induction_on generalizing s with
  | _ n ih =>
    cases s with
    | nil => intro t ht; cases ht
    | cons c cs =>
      subst hn
      cases hb : tokenMatchLen ((c :: cs).takeWhile tokenChar) with
      | some len =>
        rw [tokenFindall_cons_some c cs len hb]
        obtain ⟨hl1, hl2, hdot⟩ := tokenMatchLen_some _ len hb
        intro t ht
        rcases List.mem_cons.mp ht with hte | htm
        · subst hte
          refine ⟨?_, hdot, ?_⟩
          · have : (((c :: cs).takeWhile tokenChar).take len).length = len := by
              rw [List.length_take]
              omega
            intro hcon
            rw [hcon] at this
            simp at this
            omega
          · intro a ha
            have ha2 : a ∈ (c :: cs).takeWhile tokenChar := List.take_subset _ _ ha
            exact List.mem_takeWhile_imp ha2
        · exact ih (cs.drop (len - 1)).length (by simp [List.length_drop]; omega)
            (cs.drop (len - 1)) rfl t htm
      | none =>
        rw [tokenFindall_cons_none c cs hb]
        intro t ht
        exact ih cs.length (by simp) cs rfl t ht


/-! The claims.  Each theorem below settles one claim of the specification. -/

/-- C3: for every list of planned files, partitioning with group size 3
produces ceil(N/3) groups, every group has size at most 3, and the
concatenation of the groups in order equals the original list. -/
theorem group_files_partition_spec (files : List Str) :
    (group_files files 3).length = (files.length + 2) / 3 ∧
    (∀ g ∈ group_files files 3, g.length ≤ 3) ∧
    (group_files files 3).flatten = files :=
  ⟨group_files_three_length files, group_files_three_sizes files, group_files_three_join files⟩

/-- C2 counterexample: in the response "```file:a.py\n``` x ```" the closing
fence immediately follows the path line, so the text from the line after the
path up to the next closing fence is empty; the extraction nevertheless
produces the block with nonempty content "``` x " running past that adjacent
fence, so extracted content is not always "exactly the characters up to the
next closing fence". -/
theorem extract_content_skips_adjacent_fence :
    ("\x60\x60\x60file:a.py\n\x60\x60\x60 x \x60\x60\x60".data : Str) =
      marker ++ "a.py".data ++ '\n' :: (fence ++ " x \x60\x60\x60".data) ∧
    extractFileBlocks ("\x60\x60\x60file:a.py\n\x60\x60\x60 x \x60\x60\x60".data) =
      [⟨"a.py".data, "\x60\x60\x60 x ".data⟩] ∧
    ("\x60\x60\x60 x ".data : Str) ≠ [] := by
  refine ⟨?_, ?_, ?_⟩ <;> decide

/-- C2 (amended): extraction is left to right and non-overlapping: either no
block is extracted, or the response splits as pre ++ marker ++ raw-path ++
newline ++ content ++ fence ++ rest, extraction emits the stripped raw path
with exactly that content and continues behind the closing fence on rest; the
raw path is the nonempty newline-free text between the marker and the next
newline, and the content is nonempty and ends at the earliest closing fence
lying at least one character past the newline (so a fence immediately after
the path line does not close its own block). -/
theorem extractFileBlocks_spec (s : Str) :
    extractFileBlocks s = [] ∨
    ∃ pre raw content rest,
      s = pre ++ marker ++ raw ++ '\n' :: (content ++ fence ++ rest) ∧
      extractFileBlocks s = ⟨pyStrip raw, content⟩ :: extractFileBlocks rest ∧
      raw ≠ [] ∧ (∀ a ∈ raw, a ≠ '\n') ∧ content ≠ [] ∧
      ∀ i, 1 ≤ i → i < content.length →
        fence.isPrefixOf ((content ++ fence ++ rest).drop i) = false :=
  extractFileBlocks_step s

/-- C9 counterexample: in "```file:b.txt\n```z```" the closing fence
immediately follows the path line (the block's own content is empty), yet the
block is extracted — with content "```z" spilling past the adjacent fence to
the later one — and so a file at path b.txt is written. -/
theorem empty_content_block_is_extracted :
    ("\x60\x60\x60file:b.txt\n\x60\x60\x60z\x60\x60\x60".data : Str) =
      marker ++ "b.txt".data ++ '\n' :: (fence ++ "z\x60\x60\x60".data) ∧
    extractFileBlocks ("\x60\x60\x60file:b.txt\n\x60\x60\x60z\x60\x60\x60".data) =
      [⟨"b.txt".data, "\x60\x60\x60z".data⟩] := by
  refine ⟨?_, ?_⟩ <;> decide

/-- C9 (amended): file-block extraction only produces files with content of at
least one character; a block whose closing fence immediately follows its path
line is never emitted with empty content — when no later fence follows in the
response, nothing is extracted for it at all. -/
theorem extracted_content_nonempty :
    (∀ (s : Str) (f : ExtractedFile), f ∈ extractFileBlocks s → f.content ≠ []) ∧
    extractFileBlocks ("\x60\x60\x60file:b.txt\n\x60\x60\x60".data) = [] := by
  constructor
  · intro s f hf
    obtain ⟨_, _, _, _, _, _, _, h5⟩ := mem_extractFileBlocks s f hf
    exact h5
  · decide

/-- C5: extracting a block, materializing it with the path resolved against
the project root when relative, and re-reading the written path yields content
byte-identical to the text that stood between the fences of the response. -/
theorem extract_materialize_roundtrip (s : Str) (fs : FS) (root : Str)
    (f : ExtractedFile) (hf : f ∈ extractFileBlocks s) :
    applyExtractedFile fs root f (resolvePath root f.path) = some f.content ∧
    ∃ pre raw rest, s = pre ++ marker ++ raw ++ '\n' :: (f.content ++ fence ++ rest) := by
  constructor
  · simp [applyExtractedFile, writeFS]
  · obtain ⟨pre, raw, rest, h1, _⟩ := mem_extractFileBlocks s f hf
    exact ⟨pre, raw, rest, h1⟩

/-- C5 witness: the round trip at a concrete response, file and root. -/
theorem extract_materialize_roundtrip_witness :
    applyExtractedFile (fun _ => none) "/tmp/proj".data ⟨"a.py".data, "x\n".data⟩
      (resolvePath "/tmp/proj".data "a.py".data) = some "x\n".data :=
  (extract_materialize_roundtrip ("\x60\x60\x60file:a.py\nx\n\x60\x60\x60".data)
    (fun _ => none) "/tmp/proj".data ⟨"a.py".data, "x\n".data⟩ (by decide)).1

/-- C6: applying the same extracted file twice leaves the filesystem exactly
as one application does, and when a later write resolves to the same path the
resulting filesystem is as if only the later write had been applied
(last-write-wins, no merging). -/
theorem apply_idempotent_last_write_wins (fs : FS) (root : Str) (f g : ExtractedFile) :
    applyExtractedFile (applyExtractedFile fs root f) root f = applyExtractedFile fs root f ∧
    (resolvePath root g.path = resolvePath root f.path →
      applyExtractedFile (applyExtractedFile fs root f) root g =
        applyExtractedFile fs root g) := by
  constructor
  · funext q
    unfold applyExtractedFile writeFS
    by_cases hq : q = resolvePath root f.path <;> simp [hq]
  · intro hpg
    funext q
    unfold applyExtractedFile writeFS
    rw [hpg]
    by_cases hq : q = resolvePath root f.path <;> simp [hq]

/-- C10: updating the client settings changes only the endpoint URL and the
model identifier; the timeout field is untouched. -/
theorem update_settings_frame (c : OllamaClient) (u m : Str) :
    (update_settings c u m).timeout = c.timeout ∧
    (update_settings c u m).api_url = u ∧
    (update_settings c u m).model_name = m :=
  ⟨rfl, rfl, rfl⟩

/-- C4: `generate` is a total function of the transport outcome — no outcome
escapes as an exception — and on a non-success status or a raised transport
exception it returns the sentinel string with the error detail embedded (the
status text, or the exception message, is a suffix of the result). -/
theorem generate_error_sentinel (c : OllamaClient) (prompt : Str)
    (http : Str → Str → Str → HttpOutcome) :
    (∀ status body text, http c.api_url c.model_name prompt = .resp status body text →
      status ≠ 200 →
      generate http c prompt =
        "生成失败: API错误: ".data ++ (Nat.repr status).data ++ " - ".data ++ text ∧
      text <:+ generate http c prompt) ∧
    (∀ m, http c.api_url c.model_name prompt = .exc m →
      generate http c prompt = "生成失败: 请求异常: ".data ++ m ∧
      m <:+ generate http c prompt) := by
  constructor
  · intro status body text hh hst
    have hg : generate http c prompt =
        "生成失败: API错误: ".data ++ (Nat.repr status).data ++ " - ".data ++ text := by
      unfold generate
      rw [hh]
      dsimp only
      rw [if_neg hst]
    exact ⟨hg, by rw [hg]; exact List.suffix_append _ _⟩
  · intro m hh
    have hg : generate http c prompt = "生成失败: 请求异常: ".data ++ m := by
      unfold generate
      rw [hh]
    exact ⟨hg, by rw [hg]; exact List.suffix_append _ _⟩

/-- C8: an empty project root is rejected with the folder-selection error, a
requirement empty after stripping is rejected with the requirement error, a
run is rejected exactly when one of the two inputs is missing, and otherwise
the run launches. -/
theorem start_validation_spec (project_path requirement : Str) :
    (project_path = [] →
      start_project_generation project_path requirement =
        .rejected "请先选择项目文件夹".data) ∧
    (project_path ≠ [] → pyStrip requirement = [] →
      start_project_generation project_path requirement =
        .rejected "请输入项目需求".data) ∧
    ((project_path = [] ∨ pyStrip requirement = []) ↔
      ∃ e, start_project_generation project_path requirement = .rejected e) ∧
    (project_path ≠ [] → pyStrip requirement ≠ [] →
      start_project_generation project_path requirement =
        .launched "开始处理项目需求...".data) := by
  unfold start_project_generation
  by_cases h1 : project_path = [] <;> by_cases h2 : pyStrip requirement = [] <;>
    simp [h1, h2]

/-- C1: every pipeline run is the planning response first and the finalization
response last; when the planning response yields N at least 1 planned files the
middle is exactly the ceil(N/3) per-group implementation responses in plan
order, and when it yields none the middle is exactly the core-files response
followed by the followup response; the returned list holds one raw response per
executed stage, in execution order. -/
theorem generate_with_context_stages (gen : Str → Str) (fs : Str → FileState)
    (prompt project_path : Str) :
    (generate_with_context gen fs prompt project_path).head? =
      some (gen (prompt ++ planningSuffix)) ∧
    (generate_with_context gen fs prompt project_path).getLast? =
      some (gen (prompt ++ finalSuffix)) ∧
    (extract_planned_files (gen (prompt ++ planningSuffix)) ≠ [] →
      generate_with_context gen fs prompt project_path =
        gen (prompt ++ planningSuffix) ::
          (group_files (extract_planned_files (gen (prompt ++ planningSuffix))) 3).map
            (fun g => gen (implPrompt fs project_path prompt g))
          ++ [gen (prompt ++ finalSuffix)] ∧
      (generate_with_context gen fs prompt project_path).length =
        2 + ((extract_planned_files (gen (prompt ++ planningSuffix))).length + 2) / 3) ∧
    (extract_planned_files (gen (prompt ++ planningSuffix)) = [] →
      generate_with_context gen fs prompt project_path =
        [gen (prompt ++ planningSuffix), gen (prompt ++ coreSuffix),
         gen (prompt ++ followupSuffix), gen (prompt ++ finalSuffix)]) := by
  simp only [generate_with_context]
  by_cases hpl : extract_planned_files (gen (prompt ++ planningSuffix)) = []
  · rw [if_neg (by simp [hpl])]
    refine ⟨rfl, rfl, fun hc => absurd hpl hc, fun _ => rfl⟩
  · rw [if_pos (by simp [hpl])]
    refine ⟨rfl, ?_, ?_, fun hc => absurd hc hpl⟩
    · exact List.getLast?_concat _
    · intro _
      refine ⟨rfl, ?_⟩
      simp [List.length_append, List.length_map, group_files_three_length]
      omega

/-- C7 counterexample: the response "文件结构: main.py" contains no file-block
marker, contains a structure heading at its start, and the text after the
heading holds the path-shaped token "main.py"; yet planned-file extraction
returns the empty list, because the fallback pattern also requires a closing
fence or blank-line pair after the heading and none is present. -/
theorem fallback_needs_terminator :
    containsMarker "文件结构: main.py".data = false ∧
    findHeadingIdx "文件结构: main.py".data = some 0 ∧
    tokenFindall (List.drop 5 "文件结构: main.py".data) = ["main.py".data] ∧
    extract_planned_files "文件结构: main.py".data = [] := by
  refine ⟨?_, ?_, ?_, ?_⟩ <;> decide

/-- C7 (amended): a response with no file-block marker yields no extracted
file blocks, and planned-file extraction uses the fallback: it returns the
path-shaped tokens of the span from the structure heading to the first closing
fence or blank-line terminator, the empty list when no heading exists — or
when no such terminator follows the heading; every returned token is a
nonempty run of word, hyphen or dot characters containing at least one dot. -/
theorem no_marker_fallback (s : Str) (h : containsMarker s = false) :
    extractFileBlocks s = [] ∧
    extract_planned_files s =
      (match structMatch s with
       | some g0 => tokenFindall g0
       | none => []) ∧
    (findHeadingIdx s = none → extract_planned_files s = []) ∧
    ∀ t ∈ extract_planned_files s, t ≠ [] ∧ '.' ∈ t ∧ ∀ a ∈ t, tokenChar a = true := by
  have hmk := containsMarker_false s h
  have hfb := extractFileBlocks_no_marker s hmk
  have hmp := extractMarkerPaths_no_marker s hmk
  have hpl : extract_planned_files s =
      (match structMatch s with
       | some g0 => tokenFindall g0
       | none => []) := by
    unfold extract_planned_files
    rw [hmp]
    simp
  refine ⟨hfb, hpl, ?_, ?_⟩
  · intro hh
    rw [hpl]
    unfold structMatch
    rw [hh]
  · intro t ht
    rw [hpl] at ht
    cases hsm : structMatch s with
    | none => rw [hsm] at ht; cases ht
    | some g0 =>
      rw [hsm] at ht
      exact tokenFindall_sound g0 t ht

/-- C7 witness: the amended fallback behaviour at a concrete marker-free
response with a heading and a terminating blank line. -/
theorem no_marker_fallback_witness :
    extractFileBlocks "文件结构:\nmain.py\n\n".data = [] :=
  (no_marker_fallback "文件结构:\nmain.py\n\n".data (by decide)).1

end CodeSovereign
